import Mathlib

/-!
Shallow embedding of the anime scraper core (`scraper_core.py`) and proofs
about it.  Python strings are modelled as Lean `String` (code-point lists),
Python `str` helpers (`strip`, `lower`, `in`, `startswith`, `replace`,
`' '.join(s.split())`, slicing) are modelled explicitly below, and the
BeautifulSoup document is modelled as the lists of query results the code
actually uses (anchors with href, and the four synopsis selectors).
-/

namespace Scraper

/-- Python whitespace characters (the ones `str.strip` / `str.split` use). -/
def isPySpace (c : Char) : Bool :=
  c = ' ' || c = '\t' || c = '\n' || c = '\r' || c = '\x0b' || c = '\x0c'

/-- Model of `str.lower` on a character list (ASCII, as used by the code). -/
def lowerL (l : List Char) : List Char := l.map Char.toLower

/-- `isPrefixL p l` holds when `p` is a leading run of `l`. -/
def isPrefixL : List Char → List Char → Bool
  | [], _ => true
  | _ :: _, [] => false
  | a :: as, b :: bs => a == b && isPrefixL as bs

/-- Model of Python `sub in s` on character lists: substring occurrence. -/
def containsL (pat : List Char) : List Char → Bool
  | [] => isPrefixL pat []
  | c :: cs => isPrefixL pat (c :: cs) || containsL pat cs

/-- Right strip: remove trailing Python whitespace. -/
def rstripL (l : List Char) : List Char := (l.reverse.dropWhile isPySpace).reverse

/-- Model of `str.strip`: remove leading and trailing Python whitespace. -/
def stripL (l : List Char) : List Char := rstripL (l.dropWhile isPySpace)

/-- Splitter behind `str.split()`: accumulate the current word (reversed) in
`acc`; whitespace runs are separators, empty words never appear. -/
def wordsAux : List Char → List Char → List (List Char)
  | [], acc => if acc.isEmpty then [] else [acc.reverse]
  | c :: cs, acc =>
    if isPySpace c then
      if acc.isEmpty then wordsAux cs [] else acc.reverse :: wordsAux cs []
    else wordsAux cs (c :: acc)

/-- Join a list of words with single spaces (`' '.join`). -/
def joinSp : List (List Char) → List Char
  | [] => []
  | [w] => w
  | w :: ws => w ++ ' ' :: joinSp ws

/-- Python `str.replace(pat, '')` for a non-empty `pat`, written with fuel so
that it is structurally recursive; scanning resumes after a removed match,
exactly like CPython. -/
def replaceAllGo (pat : List Char) : Nat → List Char → List Char
  | _, [] => []
  | 0, l => l
  | fuel + 1, c :: cs =>
    if 0 < pat.length && isPrefixL pat (c :: cs) then
      replaceAllGo pat fuel ((c :: cs).drop pat.length)
    else
      c :: replaceAllGo pat fuel cs

/-- `s.replace(pat, '')` on character lists. -/
def replaceAllL (pat s : List Char) : List Char := replaceAllGo pat s.length s

/-- `str.strip` on strings. -/
def pyStrip (s : String) : String := ⟨stripL s.data⟩

/-- `str.lower` on strings. -/
def pyLower (s : String) : String := ⟨lowerL s.data⟩

/-- Python `sub in s` on strings. -/
def pyIn (sub s : String) : Bool := containsL sub.data s.data

/-- Python `s.startswith(pre)`. -/
def pyStarts (s pre : String) : Bool := isPrefixL pre.data s.data

/-- Python `' '.join(s.split())`: collapse whitespace runs, trim the ends. -/
def pyNormSp (s : String) : String := ⟨joinSp (wordsAux s.data [])⟩

/-- Python slicing `s[:n]`. -/
def pyTake (n : Nat) (s : String) : String := ⟨s.data.take n⟩

/-- Python `s.replace(pat, '')` on strings. -/
def pyReplaceAll (s pat : String) : String := ⟨replaceAllL pat.data s.data⟩

/-- `' '.join(parts)` for string parts. -/
def pyJoinSp (parts : List String) : String := ⟨joinSp (parts.map String.data)⟩

/-- One extracted record: a title and url pair (`{"title": .., "url": ..}`). -/
structure Anime where
  title : String
  url : String
deriving DecidableEq

/-- An anchor element with an href attribute, as returned by
`soup.find_all('a', href=True)`; `text` is its visible text. -/
structure Anchor where
  href : String
  text : String
deriving DecidableEq

/-- The queryable document: the anchor list plus the results of the four
synopsis selectors `.entry-content p`, `.post-content p`, `.content p`, `p`
(each element modelled by its visible text). -/
structure Soup where
  anchors : List Anchor
  selEntryContentP : List String
  selPostContentP : List String
  selContentP : List String
  selP : List String
deriving DecidableEq

/-! ## Fetcher (`get_page`) -/

/-- Scraper fetch state: the per-url cache (`self.cache`) plus a counter of
how many times the underlying transport (`self.session.get`) was invoked. -/
structure FetchState where
  cache : List (String × String)
  calls : Nat
deriving DecidableEq

/-- Fresh scraper state (`__init__` sets an empty cache). -/
def initState : FetchState := ⟨[], 0⟩

/-- Embedding of `get_page`.  The transport is a function from the invocation
index and url to `some body` (2xx success) or `none` (request exception or
non-2xx status, which `raise_for_status` turns into an exception).  On a cache
hit with `use_cache` the cached body is returned; on success the body is
stored in the cache; on failure the function returns `none`. -/
def get_page (transport : Nat → String → Option String) (url : String)
    (use_cache : Bool) (s : FetchState) : Option String × FetchState :=
  if use_cache && (s.cache.lookup url).isSome then
    (s.cache.lookup url, s)
  else
    match transport s.calls url with
    | some body => (some body, ⟨(url, body) :: s.cache, s.calls + 1⟩)
    | none => (none, ⟨s.cache, s.calls + 1⟩)

/-! ## Link extractor, title cleaner, categorizer, deduplicator -/

/-- Embedding of `extract_anime_links`: keep anchors whose href matches the
content-path pattern, whose stripped text is longer than 3, whose href is on
the site domain and avoids the denylist; record the stripped text and href. -/
def extract_anime_links (soup : Soup) : List Anime :=
  soup.anchors.filterMap (fun link =>
    let href := link.href
    let title := pyStrip link.text
    if (pyIn "sub-indo" (pyLower href) || pyIn "subtitle-indonesia" (pyLower href))
        && decide (3 < title.length)
        && pyIn "meownime.ltd" href
        && !(["facebook", "faq", "genre", "jadwal", "anime-list"].any
              (fun skip => pyIn skip (pyLower href))) then
      let title2 := pyStrip title
      if 2 < title2.length then some ⟨title2, href⟩ else none
    else none)

/-- The boilerplate substrings removed by `clean_title`. -/
def unwantedPatterns : List String :=
  ["Sub Indo", "Subtitle Indonesia", "Episode", "Batch",
   "Download", "Streaming", "Watch", "Online"]

/-- Embedding of `clean_title`: strip, remove every unwanted pattern and its
lowercase variant, normalize whitespace; fall back to the stripped original
when the result has length at most 2. -/
def clean_title (title : String) : String :=
  let cleaned0 := pyStrip title
  let replaced := unwantedPatterns.foldl
    (fun s p => pyReplaceAll (pyReplaceAll s p) (pyLower p)) cleaned0
  let cleaned := pyNormSp replaced
  if 2 < cleaned.length then cleaned else pyStrip title

/-- A record with no pattern occurrence (neither original nor lowercase). -/
def patternFree (s : String) : Bool :=
  unwantedPatterns.all (fun p => !pyIn p s && !pyIn (pyLower p) s)

inductive Bucket where
  | ongoing
  | completed
  | movies
deriving DecidableEq

/-- Rule 1 of `categorize_anime`: movie keyword in the title, or movie or film
keyword in the url (note: `film` is only checked against the url). -/
def movieRule (a : Anime) : Bool :=
  pyIn "movie" (pyLower a.title) || pyIn "movie" (pyLower a.url) ||
    pyIn "film" (pyLower a.url)

/-- Rule 2 of `categorize_anime`: sequel markers in the title. -/
def sequelRule (a : Anime) : Bool :=
  (["season 2", "season 3", "season 4", "s2", "s3", "s4", "part 2", "part 3"].any
    (fun k => pyIn k (pyLower a.title)))

/-- Rule 3 of `categorize_anime`: recency markers in the title. -/
def recencyRule (a : Anime) : Bool :=
  (["2025", "2024", "ongoing", "airing"].any (fun k => pyIn k (pyLower a.title)))

/-- The bucket the rule chain assigns, first match wins. -/
def bucketOf (a : Anime) : Bucket :=
  if movieRule a then .movies
  else if sequelRule a then .ongoing
  else if recencyRule a then .ongoing
  else .completed

structure Categorized where
  ongoing : List Anime
  completed : List Anime
  movies : List Anime
deriving DecidableEq

/-- Embedding of `categorize_anime`: one pass over the list, appending each
record to the bucket of its first matching rule. -/
def categorize_anime (l : List Anime) : Categorized :=
  l.foldl (fun d a =>
    if movieRule a then { d with movies := d.movies ++ [a] }
    else if sequelRule a then { d with ongoing := d.ongoing ++ [a] }
    else if recencyRule a then { d with ongoing := d.ongoing ++ [a] }
    else { d with completed := d.completed ++ [a] }) ⟨[], [], []⟩

/-- The dedup key `anime['title'].lower().strip()`. -/
def titleKey (a : Anime) : String := pyStrip (pyLower a.title)

/-- The loop inside `remove_duplicates`, with the `seen` key set explicit. -/
def removeDupAux : List String → List Anime → List Anime
  | _, [] => []
  | seen, a :: rest =>
    let key := titleKey a
    if key ∉ seen ∧ 2 < key.length then
      a :: removeDupAux (key :: seen) rest
    else
      removeDupAux seen rest

/-- Embedding of `remove_duplicates`. -/
def remove_duplicates (l : List Anime) : List Anime := removeDupAux [] l

/-! ## Stable sort (model of `list.sort(key=..)`)

Python `list.sort` is a stable sort by the key function.  We model it by a
stable insertion sort: a later element is inserted after every earlier
element whose key is less than or equal to its own, which is exactly the
stable order Python produces. -/

/-- Insert `x` (a later element) into the already sorted `l`, after every
element not strictly greater than `x`. -/
def insertSorted (le : α → α → Bool) (x : α) : List α → List α
  | [] => [x]
  | y :: ys =>
    if le x y && !le y x then x :: y :: ys else y :: insertSorted le x ys

/-- Stable sort by the boolean comparison `le`. -/
def stableSort (le : α → α → Bool) (l : List α) : List α :=
  l.foldl (fun acc x => insertSorted le x acc) []

/-! ## List page scrape and search -/

/-- The comparison behind `anime_list.sort(key=lambda x: x['title'].lower())`. -/
def titleLe (x y : Anime) : Bool := decide (pyLower x.title ≤ pyLower y.title)

/-- Embedding of `scrape_anime_list`: `page` is the fetched and parsed list
page (`none` when `get_page` failed or the body was empty, in which case the
code returns `[]`); extract links, dedupe, optionally filter by the starting
letter (a falsy letter means no filter), then sort by lowercased title. -/
def scrape_anime_list (page : Option Soup) (letter : Option String) : List Anime :=
  match page with
  | none => []
  | some soup =>
    let l := remove_duplicates (extract_anime_links soup)
    let l := match letter with
      | none => l
      | some ch =>
        if ch.length = 0 then l
        else l.filter (fun a => pyStarts (pyLower a.title) (pyLower ch))
    stableSort titleLe l

/-- First component of the search sort key: `not title.lower().startswith(q)`
encoded as 0 for a starts-with match and 1 otherwise, so matches sort first. -/
def searchKeyHead (q : String) (a : Anime) : Nat :=
  if pyStarts (pyLower a.title) q then 0 else 1

/-- The comparison behind `results.sort(key=lambda x: (not startswith, len))`. -/
def searchLe (q : String) (x y : Anime) : Bool :=
  decide (searchKeyHead q x < searchKeyHead q y ∨
    (searchKeyHead q x = searchKeyHead q y ∧ x.title.length ≤ y.title.length))

/-- The filter and ranking part of `search_anime`, applied to the list that
`scrape_anime_list` produced: lower and strip the query, return `[]` on a
falsy query, keep titles containing the query, sort by the relevance key,
cap at 25. -/
def search_rank (all_anime : List Anime) (query : String) : List Anime :=
  let q := pyStrip (pyLower query)
  if q.length = 0 then []
  else
    let results := all_anime.filter (fun a => pyIn q (pyLower a.title))
    (stableSort (searchLe q) results).take 25

/-- Embedding of `search_anime`: scrape the full list, then filter and rank. -/
def search_anime (page : Option Soup) (query : String) : List Anime :=
  search_rank (scrape_anime_list page none) query

/-! ## Detail extraction: synopsis and download links -/

/-- The words that disqualify a paragraph from the synopsis. -/
def disallowedWords : List String := ["download", "link", "episode"]

/-- A paragraph text qualifies when it is longer than 30 characters and
contains none of the disallowed words. -/
def qualifiesPara (text : String) : Bool :=
  decide (30 < text.length) &&
    !(disallowedWords.any (fun w => pyIn w (pyLower text)))

/-- The four synopsis selectors, in the order the code tries them. -/
def synopsisSelectors (soup : Soup) : List (List String) :=
  [soup.selEntryContentP, soup.selPostContentP, soup.selContentP, soup.selP]

/-- The selector loop of `extract_synopsis`: skip selectors with no elements;
for a selector with elements take the first three paragraphs, strip each and
keep the qualifying ones; stop as soon as that yields at least one part. -/
def synopsisGo : List (List String) → List String
  | [] => []
  | elems :: rest =>
    if elems.isEmpty then synopsisGo rest
    else
      let parts := ((elems.take 3).map pyStrip).filter qualifiesPara
      if parts.isEmpty then synopsisGo rest else parts

/-- The collected synopsis parts for a document. -/
def synopsisParts (soup : Soup) : List String :=
  synopsisGo (synopsisSelectors soup)

/-- Embedding of `extract_synopsis`: join the parts with single spaces and
append an ellipsis to the 500-character cut when the join is longer. -/
def extract_synopsis (soup : Soup) : String :=
  let synopsis := pyJoinSp (synopsisParts soup)
  if 500 < synopsis.length then pyTake 500 synopsis ++ "..." else synopsis

/-- The allowlisted file-hosting domains. -/
def download_domains : List String :=
  ["drive.google.com", "mega.nz", "mediafire.com",
   "zippyshare.com", "solidfiles.com", "uptobox.com"]

structure DownloadLink where
  text : String
  url : String
  type : String
deriving DecidableEq

/-- Embedding of `determine_link_type`: first matching domain wins, checked
in the fixed order of the code; `Other` when none matches. -/
def determine_link_type (url : String) : String :=
  let u := pyLower url
  if pyIn "drive.google.com" u then "Google Drive"
  else if pyIn "mega.nz" u then "MEGA"
  else if pyIn "mediafire.com" u then "MediaFire"
  else if pyIn "zippyshare.com" u then "ZippyShare"
  else if pyIn "solidfiles.com" u then "SolidFiles"
  else if pyIn "uptobox.com" u then "Uptobox"
  else "Other"

/-- The dedup loop of `extract_download_links`, keyed by exact url, first
occurrence wins. -/
def dedupByUrl : List String → List DownloadLink → List DownloadLink
  | _, [] => []
  | seen, l :: rest =>
    if l.url ∈ seen then dedupByUrl seen rest
    else l :: dedupByUrl (l.url :: seen) rest

/-- Embedding of `extract_download_links`: keep anchors whose href contains an
allowlisted domain, record the capped text, url and provider type, dedupe by
exact url, cap at 10. -/
def extract_download_links (soup : Soup) : List DownloadLink :=
  let links := soup.anchors.filterMap (fun link =>
    if download_domains.any (fun d => pyIn d link.href) then
      some ⟨pyTake 100 (pyStrip link.text), link.href, determine_link_type link.href⟩
    else none)
  (dedupByUrl [] links).take 10

/-! ## Concrete documents and inputs used by witnesses and counterexamples -/

/-- A transport that always fails (request exception or non-2xx). -/
def failTransport : Nat → String → Option String := fun _ _ => none

/-- A transport that always succeeds with a fixed body. -/
def okTransport : Nat → String → Option String := fun _ _ => some "<html>"

/-- A 40-character paragraph (qualifies: longer than 30, no disallowed word). -/
def paraA : String := ⟨List.replicate 40 'a'⟩

/-- Another qualifying 40-character paragraph. -/
def paraB : String := ⟨List.replicate 40 'b'⟩

/-- A third qualifying 40-character paragraph. -/
def paraC : String := ⟨List.replicate 40 'c'⟩

/-- A page whose first synopsis selector yields five paragraphs of which only
the first, third and fourth qualify (longer than 30 characters, no disallowed
word); the second and fifth are short. -/
def fiveParaSoup : Soup := ⟨[], [paraA, "short", paraB, paraC, "tiny"], [], [], []⟩

/-- A page whose first synopsis selector yields one qualifying paragraph of
501 characters, so the joined synopsis exceeds 500 characters. -/
def longParaSoup : Soup := ⟨[], [⟨List.replicate 501 'a'⟩], [], [], []⟩

/-- The search-ranking example list from the specification. -/
def narutoList : List Anime :=
  [⟨"Naruto Shippuden", "u1"⟩, ⟨"Boruto: Naruto Next", "u2"⟩, ⟨"Naruto", "u3"⟩]

/-! # Theorems

First the helper lemmas, then one theorem for each claim (with its
counterexample and witness where applicable). -/

/-! ## Fetcher: C2 and C9 -/

/-- C2 counterexample.  The claim quantifies over every url and scraper and
promises at most one transport invocation across two successive cached-mode
calls.  When the underlying GET fails, `get_page` caches nothing, so the
second call hits the transport again: starting from a fresh scraper and a
failing transport, the two calls invoke the transport twice, not at most
once. -/
theorem c2_counterexample :
    ¬ (get_page failTransport "https://meownime.ltd" true
        (get_page failTransport "https://meownime.ltd" true initState).2).2.calls ≤ 1 := by
  decide

/-- C2 (amended): if the first cached-mode call succeeds (cache hit or
successful fetch), the second cached-mode call for the same url returns the
same body and performs no further transport invocation, and the first call
performed at most one; so two successive calls invoke the transport at most
once in total whenever the first fetch does not fail. -/
theorem c2_cached_second_call (t : Nat → String → Option String) (url : String)
    (s : FetchState) (hsucc : (get_page t url true s).1.isSome = true) :
    (get_page t url true (get_page t url true s).2).1 = (get_page t url true s).1 ∧
    (get_page t url true (get_page t url true s).2).2.calls =
      (get_page t url true s).2.calls ∧
    (get_page t url true s).2.calls ≤ s.calls + 1 := by
  by_cases hc : (s.cache.lookup url).isSome = true
  · simp [get_page, hc]
  · cases ht : t s.calls url with
    | none =>
      exfalso
      simp [get_page, hc, ht] at hsucc
    | some body =>
      have h1 : get_page t url true s =
          (some body, ⟨(url, body) :: s.cache, s.calls + 1⟩) := by
        simp [get_page, hc, ht]
      rw [h1]
      refine ⟨?_, ?_, ?_⟩ <;> simp [get_page, List.lookup]

/-- C2 witness: with an always-succeeding transport and a fresh scraper, the
second call returns the first body with no extra transport invocation. -/
theorem c2_witness :
    (get_page okTransport "https://meownime.ltd" true
        (get_page okTransport "https://meownime.ltd" true initState).2).1 =
      (get_page okTransport "https://meownime.ltd" true initState).1 ∧
    (get_page okTransport "https://meownime.ltd" true
        (get_page okTransport "https://meownime.ltd" true initState).2).2.calls =
      (get_page okTransport "https://meownime.ltd" true initState).2.calls ∧
    (get_page okTransport "https://meownime.ltd" true initState).2.calls ≤
      initState.calls + 1 :=
  c2_cached_second_call okTransport "https://meownime.ltd" initState (by decide)

/-- C9: when the underlying GET fails (request exception or non-2xx status)
and the call actually reaches the transport (no cache hit is used), `get_page`
returns `none` rather than raising, and the cache is left unchanged, so the
failed url is not cached. -/
theorem c9_failed_fetch (t : Nat → String → Option String) (url : String)
    (b : Bool) (s : FetchState)
    (hmiss : (b && (s.cache.lookup url).isSome) = false)
    (hfail : t s.calls url = none) :
    get_page t url b s = (none, ⟨s.cache, s.calls + 1⟩) := by
  simp [get_page, hmiss, hfail]

/-- C9 witness: a failing transport on a fresh scraper yields `none` and an
unchanged (empty) cache. -/
theorem c9_witness :
    get_page failTransport "https://meownime.ltd" true initState =
      (none, ⟨initState.cache, initState.calls + 1⟩) :=
  c9_failed_fetch failTransport "https://meownime.ltd" true initState
    (by decide) rfl

/-! ## Categorizer: C3 -/

/-- The categorizer fold, characterized bucket by bucket as a filter. -/
theorem categorize_foldl (l : List Anime) (d : Categorized) :
    l.foldl (fun d a =>
      if movieRule a then { d with movies := d.movies ++ [a] }
      else if sequelRule a then { d with ongoing := d.ongoing ++ [a] }
      else if recencyRule a then { d with ongoing := d.ongoing ++ [a] }
      else { d with completed := d.completed ++ [a] }) d =
    ⟨d.ongoing ++ l.filter (fun a => bucketOf a == Bucket.ongoing),
     d.completed ++ l.filter (fun a => bucketOf a == Bucket.completed),
     d.movies ++ l.filter (fun a => bucketOf a == Bucket.movies)⟩ := by
  induction l generalizing d with
  | nil => simp
  | cons a rest ih =>
    simp only [List.foldl_cons, List.filter_cons]
    by_cases h1 : movieRule a
    · simp [h1, bucketOf, ih]
    · by_cases h2 : sequelRule a
      · simp [h1, h2, bucketOf, ih]
      · by_cases h3 : recencyRule a
        · simp [h1, h2, h3, bucketOf, ih]
        · simp [h1, h2, h3, bucketOf, ih]

/-- Each record lands in exactly one bucket, counted. -/
theorem filter_bucket_length (l : List Anime) :
    (l.filter (fun a => bucketOf a == Bucket.ongoing)).length +
      (l.filter (fun a => bucketOf a == Bucket.completed)).length +
      (l.filter (fun a => bucketOf a == Bucket.movies)).length = l.length := by
  induction l with
  | nil => simp
  | cons a rest ih =>
    simp only [List.filter_cons]
    cases hb : bucketOf a <;> simp [hb] <;> omega

/-- C3 counterexample.  The claim says any record whose title or url contains
`movie` or `film` goes to movies.  The code checks `film` only against the
url, so a record whose title alone contains `film` falls through to the later
rules: `Great Film` lands in completed while the claim demands movies. -/
theorem c3_counterexample :
    pyIn "film" (pyLower "Great Film") = true ∧
    (categorize_anime [⟨"Great Film", "https://x/great"⟩]).movies = [] ∧
    (categorize_anime [⟨"Great Film", "https://x/great"⟩]).completed =
      [⟨"Great Film", "https://x/great"⟩] := by
  decide

/-- C3 (amended): `categorize_anime` assigns every record to exactly one of
the three buckets, evaluating the rules in fixed priority order with first
match winning; the movies bucket holds exactly the records whose title
contains `movie` or whose url contains `movie` or `film` (a `film` keyword in
the title alone does not route to movies). -/
theorem c3_categorize_partition :
    (∀ l : List Anime,
      (categorize_anime l).ongoing =
        l.filter (fun a => bucketOf a == Bucket.ongoing) ∧
      (categorize_anime l).completed =
        l.filter (fun a => bucketOf a == Bucket.completed) ∧
      (categorize_anime l).movies =
        l.filter (fun a => bucketOf a == Bucket.movies) ∧
      (categorize_anime l).ongoing.length + (categorize_anime l).completed.length +
        (categorize_anime l).movies.length = l.length) ∧
    ∀ a : Anime, bucketOf a = Bucket.movies ↔
      (pyIn "movie" (pyLower a.title) || pyIn "movie" (pyLower a.url) ||
        pyIn "film" (pyLower a.url)) = true := by
  constructor
  · intro l
    have h := categorize_foldl l ⟨[], [], []⟩
    unfold categorize_anime
    rw [h]
    simp [filter_bucket_length l]
  · intro a
    unfold bucketOf movieRule
    by_cases h1 : (pyIn "movie" (pyLower a.title) || pyIn "movie" (pyLower a.url) ||
        pyIn "film" (pyLower a.url)) = true
    · simp [h1]
    · simp only [Bool.not_eq_true] at h1
      simp only [h1, Bool.false_eq_true, if_false, iff_false]
      split
      · simp
      · split <;> simp

/-! ## Deduplicator: C6 -/

/-- The dedup loop emits pairwise distinct keys, all absent from `seen` and
all longer than 2. -/
theorem removeDupAux_keys (l : List Anime) : ∀ seen : List String,
    ((removeDupAux seen l).map titleKey).Nodup ∧
    ∀ a ∈ removeDupAux seen l, titleKey a ∉ seen ∧ 2 < (titleKey a).length := by
  induction l with
  | nil => intro seen; simp [removeDupAux]
  | cons a rest ih =>
    intro seen
    by_cases h : titleKey a ∉ seen ∧ 2 < (titleKey a).length
    · rw [removeDupAux, if_pos h]
      obtain ⟨ihnodup, ihmem⟩ := ih (titleKey a :: seen)
      refine ⟨?_, ?_⟩
      · simp only [List.map_cons, List.nodup_cons]
        refine ⟨?_, ihnodup⟩
        intro hmem
        obtain ⟨b, hb, hkey⟩ := List.mem_map.mp hmem
        exact (ihmem b hb).1 (hkey ▸ List.mem_cons_self _ _)
      · intro b hb
        rcases List.mem_cons.mp hb with rfl | hb'
        · exact h
        · obtain ⟨hnot, hlen⟩ := ihmem b hb'
          exact ⟨fun hmem => hnot (List.mem_cons_of_mem _ hmem), hlen⟩
    · rw [removeDupAux, if_neg h]
      exact ih seen

/-- The dedup loop output is a sublist of its input (order preserved). -/
theorem removeDupAux_sublist (l : List Anime) : ∀ seen : List String,
    List.Sublist (removeDupAux seen l) l := by
  induction l with
  | nil => intro seen; simp [removeDupAux]
  | cons a rest ih =>
    intro seen
    rw [removeDupAux]
    split
    · exact (ih _).cons₂ a
    · exact (ih _).cons a

/-- Every input record with an eligible key not yet seen leaves a
representative with the same key in the output. -/
theorem removeDupAux_complete (l : List Anime) : ∀ (seen : List String) (a : Anime),
    a ∈ l → 2 < (titleKey a).length → titleKey a ∉ seen →
    ∃ b ∈ removeDupAux seen l, titleKey b = titleKey a := by
  induction l with
  | nil => intro seen a ha; simp at ha
  | cons c rest ih =>
    intro seen a ha hlen hseen
    by_cases h : titleKey c ∉ seen ∧ 2 < (titleKey c).length
    · rw [removeDupAux, if_pos h]
      rcases List.mem_cons.mp ha with rfl | ha'
      · exact ⟨a, List.mem_cons_self _ _, rfl⟩
      · by_cases hkey : titleKey a = titleKey c
        · exact ⟨c, List.mem_cons_self _ _, hkey.symm⟩
        · obtain ⟨b, hb, hbkey⟩ := ih (titleKey c :: seen) a ha' hlen
            (by simp [hseen, hkey])
          exact ⟨b, List.mem_cons_of_mem _ hb, hbkey⟩
    · rw [removeDupAux, if_neg h]
      rcases List.mem_cons.mp ha with rfl | ha'
      · exact absurd ⟨hseen, hlen⟩ h
      · exact ih seen a ha' hlen hseen

/-- The first eligible occurrence of a key is the record that is kept. -/
theorem removeDupAux_first (l₁ : List Anime) : ∀ (seen : List String)
    (a : Anime) (l₂ : List Anime),
    (∀ b ∈ l₁, titleKey b ≠ titleKey a) → titleKey a ∉ seen →
    2 < (titleKey a).length →
    a ∈ removeDupAux seen (l₁ ++ a :: l₂) := by
  induction l₁ with
  | nil =>
    intro seen a l₂ _ hseen hlen
    rw [List.nil_append, removeDupAux, if_pos ⟨hseen, hlen⟩]
    exact List.mem_cons_self _ _
  | cons c rest ih =>
    intro seen a l₂ hne hseen hlen
    rw [List.cons_append, removeDupAux]
    split
    · refine List.mem_cons_of_mem _ (ih _ a l₂ ?_ ?_ hlen)
      · exact fun b hb => hne b (List.mem_cons_of_mem _ hb)
      · simp only [List.mem_cons, not_or]
        exact ⟨fun hk => hne c (List.mem_cons_self _ _) hk.symm, hseen⟩
    · exact ih _ a l₂ (fun b hb => hne b (List.mem_cons_of_mem _ hb)) hseen hlen

/-- C6: `remove_duplicates` keys are pairwise distinct, every kept key is
longer than 2 (records with a short key are dropped entirely), the output is
an order-preserving sublist of the input, every eligible key keeps a
representative, and the first eligible occurrence of a key is the record
kept. -/
theorem c6_remove_duplicates (l : List Anime) :
    ((remove_duplicates l).map titleKey).Nodup ∧
    (∀ a ∈ remove_duplicates l, 2 < (titleKey a).length) ∧
    List.Sublist (remove_duplicates l) l ∧
    (∀ a ∈ l, 2 < (titleKey a).length →
      ∃ b ∈ remove_duplicates l, titleKey b = titleKey a) ∧
    (∀ (l₁ : List Anime) (a : Anime) (l₂ : List Anime), l = l₁ ++ a :: l₂ →
      2 < (titleKey a).length → (∀ b ∈ l₁, titleKey b ≠ titleKey a) →
      a ∈ remove_duplicates l) := by
  refine ⟨(removeDupAux_keys l []).1, ?_, removeDupAux_sublist l [], ?_, ?_⟩
  · exact fun a ha => ((removeDupAux_keys l []).2 a ha).2
  · exact fun a ha hlen => removeDupAux_complete l [] a ha hlen (by simp)
  · intro l₁ a l₂ hsplit hlen hne
    rw [hsplit]
    exact removeDupAux_first l₁ [] a l₂ hne (by simp) hlen

/-- C6 witness: in a list with a case- and whitespace-insensitive duplicate
and a record with a too-short key, only the first `Naruto` record survives. -/
theorem c6_witness :
    ⟨"Naruto", "u"⟩ ∈
      remove_duplicates [⟨"Naruto", "u"⟩, ⟨" naruto ", "v"⟩, ⟨"ab", "w"⟩] :=
  (c6_remove_duplicates _).2.2.2.2 [] ⟨"Naruto", "u"⟩ [⟨" naruto ", "v"⟩, ⟨"ab", "w"⟩]
    rfl (by decide) (by simp)

/-! ## Download links: C8 -/

/-- Everything the url-dedup loop keeps comes from its input. -/
theorem dedupByUrl_subset (l : List DownloadLink) : ∀ (seen : List String)
    (x : DownloadLink), x ∈ dedupByUrl seen l → x ∈ l := by
  induction l with
  | nil => intro seen x hx; simp [dedupByUrl] at hx
  | cons c rest ih =>
    intro seen x hx
    rw [dedupByUrl] at hx
    split at hx
    · exact List.mem_cons_of_mem _ (ih seen x hx)
    · rcases List.mem_cons.mp hx with rfl | hx'
      · exact List.mem_cons_self _ _
      · exact List.mem_cons_of_mem _ (ih _ x hx')

/-- The url-dedup loop emits pairwise distinct urls, none of them seen. -/
theorem dedupByUrl_nodup (l : List DownloadLink) : ∀ seen : List String,
    ((dedupByUrl seen l).map DownloadLink.url).Nodup ∧
    ∀ x ∈ dedupByUrl seen l, x.url ∉ seen := by
  induction l with
  | nil => intro seen; simp [dedupByUrl]
  | cons c rest ih =>
    intro seen
    rw [dedupByUrl]
    split
    · exact ⟨(ih seen).1, (ih seen).2⟩
    · obtain ⟨ihnodup, ihmem⟩ := ih (c.url :: seen)
      refine ⟨?_, ?_⟩
      · simp only [List.map_cons, List.nodup_cons]
        refine ⟨?_, ihnodup⟩
        intro hmem
        obtain ⟨b, hb, hkey⟩ := List.mem_map.mp hmem
        exact ihmem b hb (hkey ▸ List.mem_cons_self _ _)
      · intro x hx
        rcases List.mem_cons.mp hx with rfl | hx'
        · assumption
        · exact fun hmem => ihmem x hx' (List.mem_cons_of_mem _ hmem)

/-- C8: every returned link has an allowlisted file-hosting domain in its
url, the urls are pairwise distinct (dedup by exact url), at most 10 links
are returned, and a page with no allowlisted anchor yields the empty list
rather than an error. -/
theorem c8_download_links (soup : Soup) :
    (∀ dl ∈ extract_download_links soup,
      download_domains.any (fun d => pyIn d dl.url) = true) ∧
    ((extract_download_links soup).map DownloadLink.url).Nodup ∧
    (extract_download_links soup).length ≤ 10 ∧
    ((∀ a ∈ soup.anchors, download_domains.any (fun d => pyIn d a.href) = false) →
      extract_download_links soup = []) := by
  refine ⟨?_, ?_, ?_, ?_⟩
  · intro dl hdl
    have hded : dl ∈ dedupByUrl [] (soup.anchors.filterMap _) :=
      List.mem_of_mem_take hdl
    have hfm := dedupByUrl_subset _ [] dl hded
    obtain ⟨link, _, hsome⟩ := List.mem_filterMap.mp hfm
    by_cases hcond : download_domains.any (fun d => pyIn d link.href) = true
    · rw [if_pos hcond] at hsome
      cases hsome
      exact hcond
    · rw [if_neg hcond] at hsome
      cases hsome
  · rw [extract_download_links, List.map_take]
    exact ((dedupByUrl_nodup _ []).1).take
  · exact List.length_take_le _ _
  · intro hnone
    rw [extract_download_links]
    have : soup.anchors.filterMap (fun link =>
        if download_domains.any (fun d => pyIn d link.href) then
          some (⟨pyTake 100 (pyStrip link.text), link.href,
            determine_link_type link.href⟩ : DownloadLink)
        else none) = [] := by
      rw [List.filterMap_eq_nil_iff]
      intro a ha
      rw [if_neg (by simp [hnone a ha])]
    rw [this]
    rfl

/-- C8 witness: a page whose only anchor points at a non-allowlisted host
yields no download links. -/
theorem c8_witness :
    extract_download_links ⟨[⟨"https://example.com/x", "x"⟩], [], [], [], []⟩ = [] :=
  (c8_download_links _).2.2.2 (by decide)

/-! ## Synopsis: C4 and C1 -/

set_option maxRecDepth 8000 in
/-- C4 counterexample.  The claim says the synopsis is at most 500 characters
long.  When the join exceeds 500 characters the code returns the 500-character
cut with a three-character ellipsis appended, 503 characters in total: a page
with a single qualifying 501-character paragraph produces a 503-character
synopsis. -/
theorem c4_counterexample :
    ¬ (extract_synopsis longParaSoup).length ≤ 500 ∧
    (extract_synopsis longParaSoup).length = 503 := by
  constructor
  · decide
  · decide

/-- C4 (amended): the synopsis is at most 503 characters long; when the
joined paragraphs exceed 500 characters the result is the 500-character
truncation with the three-character ellipsis appended (503 characters), and
otherwise it is the join itself. -/
theorem c4_truncation (soup : Soup) :
    (extract_synopsis soup).length ≤ 503 ∧
    (500 < (pyJoinSp (synopsisParts soup)).length →
      extract_synopsis soup =
        pyTake 500 (pyJoinSp (synopsisParts soup)) ++ "...") ∧
    ((pyJoinSp (synopsisParts soup)).length ≤ 500 →
      extract_synopsis soup = pyJoinSp (synopsisParts soup)) := by
  unfold extract_synopsis
  by_cases h : 500 < (pyJoinSp (synopsisParts soup)).length
  · rw [if_pos h]
    refine ⟨?_, fun _ => rfl, fun hle => absurd h (by omega)⟩
    rw [String.length_append]
    have htake : (pyTake 500 (pyJoinSp (synopsisParts soup))).length ≤ 500 := by
      show (List.take 500 _).length ≤ 500
      exact List.length_take_le _ _
    have : ("..." : String).length = 3 := rfl
    omega
  · rw [if_neg h]
    exact ⟨by omega, fun hgt => absurd hgt h, fun _ => rfl⟩

set_option maxRecDepth 8000 in
/-- C4 witness: on the page with the 501-character paragraph the synopsis is
exactly the 500-character cut followed by the ellipsis. -/
theorem c4_witness :
    extract_synopsis longParaSoup =
      pyTake 500 (pyJoinSp (synopsisParts longParaSoup)) ++ "..." :=
  (c4_truncation longParaSoup).2.1 (by decide)

/-- The selector loop returns the qualifying stripped texts among the first
three elements of the first selector that returns any elements, provided at
least one of those qualifies. -/
theorem synopsisGo_first (sels : List (List String)) (elems : List String)
    (hfind : sels.find? (fun e => !e.isEmpty) = some elems)
    (hne : ((elems.take 3).map pyStrip).filter qualifiesPara ≠ []) :
    synopsisGo sels = ((elems.take 3).map pyStrip).filter qualifiesPara := by
  induction sels with
  | nil => simp at hfind
  | cons e rest ih =>
    rw [List.find?_cons] at hfind
    by_cases he : e.isEmpty
    · rw [synopsisGo, if_pos he]
      simp only [he, Bool.not_true] at hfind
      exact ih hfind
    · simp only [Bool.not_eq_true'] at he
      simp only [he, Bool.not_false, Option.some.injEq] at hfind
      subst hfind
      rw [synopsisGo, if_neg (by simp [he])]
      simp only [List.isEmpty_iff]
      rw [if_neg hne]

/-- C1 counterexample.  Five paragraphs in the first selector, of which only
the first, third and fourth qualify.  The claim predicts the join of
paragraphs 1, 3 and 4; the code takes the first three paragraphs and filters
them, so it joins paragraphs 1 and 3 only. -/
theorem c1_counterexample :
    qualifiesPara paraA = true ∧ qualifiesPara paraB = true ∧
    qualifiesPara paraC = true ∧
    ¬ 30 < (pyStrip "short").length ∧ ¬ 30 < (pyStrip "tiny").length ∧
    extract_synopsis fiveParaSoup ≠ paraA ++ " " ++ paraB ++ " " ++ paraC ∧
    extract_synopsis fiveParaSoup = paraA ++ " " ++ paraB := by
  refine ⟨by decide, by decide, by decide, by decide, by decide, ?_, by decide⟩
  decide

/-- C1 (amended): when the first synopsis selector returning elements yields
five paragraphs of which only the first, third and fourth qualify (stripped
text longer than 30 characters, no disallowed word), `extract_synopsis`
joins exactly paragraphs 1 and 3 in document order: the code takes the first
three paragraphs of the selector and filters those, rather than taking the
first three qualifying paragraphs, so the fourth paragraph is never
considered. -/
theorem c1_first_three_paragraphs (soup : Soup) (p1 p2 p3 p4 p5 : String)
    (hfind : (synopsisSelectors soup).find? (fun e => !e.isEmpty) =
      some [p1, p2, p3, p4, p5])
    (h1 : qualifiesPara (pyStrip p1) = true)
    (h2 : ¬ 30 < (pyStrip p2).length)
    (h3 : qualifiesPara (pyStrip p3) = true)
    (_h4 : qualifiesPara (pyStrip p4) = true)
    (_h5 : ¬ 30 < (pyStrip p5).length)
    (hlen : (pyJoinSp [pyStrip p1, pyStrip p3]).length ≤ 500) :
    extract_synopsis soup = pyStrip p1 ++ " " ++ pyStrip p3 := by
  have hq2 : qualifiesPara (pyStrip p2) = false := by
    unfold qualifiesPara
    simp [h2]
  have hparts : synopsisParts soup = [pyStrip p1, pyStrip p3] := by
    unfold synopsisParts
    rw [synopsisGo_first _ _ hfind] <;>
      simp [List.take, List.filter, h1, hq2, h3]
  have hjoin : pyJoinSp [pyStrip p1, pyStrip p3] =
      pyStrip p1 ++ " " ++ pyStrip p3 := by
    apply String.ext
    simp [pyJoinSp, joinSp, String.data_append]
  unfold extract_synopsis
  rw [hparts, hjoin]
  rw [if_neg (by rw [← hjoin]; omega)]

/-- C1 witness: the five-paragraph example page instantiates the amended
claim, and the synopsis is the join of paragraphs 1 and 3. -/
theorem c1_witness :
    extract_synopsis fiveParaSoup = pyStrip paraA ++ " " ++ pyStrip paraB :=
  c1_first_three_paragraphs fiveParaSoup paraA "short" paraB paraC "tiny"
    (by decide) (by decide) (by decide) (by decide) (by decide) (by decide)
    (by decide)

/-! ## Stable sort lemmas, search (C5) and list sorting (C10) -/

/-- Inserting an element permutes its cons. -/
theorem insertSorted_perm {α : Type} (le : α → α → Bool) (x : α) (l : List α) :
    List.Perm (insertSorted le x l) (x :: l) := by
  induction l with
  | nil => rfl
  | cons y ys ih =>
    rw [insertSorted]
    split
    · rfl
    · exact (ih.cons y).trans (List.Perm.swap x y ys)

/-- Insertion preserves sortedness when `le` is total and transitive. -/
theorem insertSorted_pairwise {α : Type} (le : α → α → Bool)
    (htotal : ∀ a b, le a b || le b a)
    (htrans : ∀ a b c, le a b = true → le b c = true → le a c = true)
    (x : α) (l : List α) (hl : l.Pairwise (fun a b => le a b = true)) :
    (insertSorted le x l).Pairwise (fun a b => le a b = true) := by
  induction l with
  | nil => simp [insertSorted]
  | cons y ys ih =>
    obtain ⟨hy, hys⟩ := List.pairwise_cons.mp hl
    rw [insertSorted]
    by_cases hcond : (le x y && !le y x) = true
    · rw [if_pos hcond]
      rw [Bool.and_eq_true] at hcond
      obtain ⟨hxy, hnyx⟩ := hcond
      refine List.pairwise_cons.mpr ⟨?_, hl⟩
      intro z hz
      rcases List.mem_cons.mp hz with rfl | hz'
      · exact hxy
      · exact htrans x y z hxy (hy z hz')
    · rw [if_neg hcond]
      have hyx : le y x = true := by
        by_cases hyx : le y x = true
        · exact hyx
        · exfalso
          have hyx' : le y x = false := by simpa using hyx
          have hxy : le x y = true := by
            have h := htotal x y
            rw [Bool.or_eq_true] at h
            rcases h with h | h
            · exact h
            · exact absurd h hyx
          exact hcond (by simp [hxy, hyx'])
      refine List.pairwise_cons.mpr ⟨?_, ih hys⟩
      intro z hz
      rcases List.mem_cons.mp ((insertSorted_perm le x ys).mem_iff.mp hz) with rfl | h
      · exact hyx
      · exact hy z h

/-- The stable sort is a permutation of its input. -/
theorem stableSort_perm {α : Type} (le : α → α → Bool) (l : List α) :
    List.Perm (stableSort le l) l := by
  have key : ∀ (l acc : List α),
      List.Perm (l.foldl (fun acc x => insertSorted le x acc) acc) (acc ++ l) := by
    intro l
    induction l with
    | nil => intro acc; simp
    | cons x xs ih =>
      intro acc
      have step : (x :: xs).foldl (fun acc x => insertSorted le x acc) acc
          = xs.foldl (fun acc x => insertSorted le x acc) (insertSorted le x acc) := rfl
      rw [step]
      refine (ih _).trans ?_
      refine (((insertSorted_perm le x acc).append_right xs)).trans ?_
      exact List.perm_middle.symm
  simpa using key l []

/-- The stable sort output is pairwise ordered by `le`. -/
theorem stableSort_pairwise {α : Type} (le : α → α → Bool)
    (htotal : ∀ a b, le a b || le b a)
    (htrans : ∀ a b c, le a b = true → le b c = true → le a c = true)
    (l : List α) : (stableSort le l).Pairwise (fun a b => le a b = true) := by
  have key : ∀ (l acc : List α), acc.Pairwise (fun a b => le a b = true) →
      (l.foldl (fun acc x => insertSorted le x acc) acc).Pairwise
        (fun a b => le a b = true) := by
    intro l
    induction l with
    | nil => intro acc h; exact h
    | cons x xs ih =>
      intro acc h
      exact ih _ (insertSorted_pairwise le htotal htrans x acc h)
  exact key l [] (List.Pairwise.nil)

/-- The search comparison is total. -/
theorem searchLe_total (q : String) (x y : Anime) :
    searchLe q x y || searchLe q y x := by
  simp only [searchLe, Bool.or_eq_true, decide_eq_true_eq]
  omega

/-- The search comparison is transitive. -/
theorem searchLe_trans (q : String) (x y z : Anime)
    (h1 : searchLe q x y = true) (h2 : searchLe q y z = true) :
    searchLe q x z = true := by
  simp only [searchLe, decide_eq_true_eq] at *
  omega

/-- C5 counterexample.  The claim quantifies over every query and promises
exactly the records whose title contains the query.  The empty query is
contained in every title, yet the code returns the empty list for it. -/
theorem c5_counterexample :
    pyIn "" (pyLower "Naruto") = true ∧
    search_rank [⟨"Naruto", "u"⟩] "" = [] := by
  decide

/-- C5 (amended): for the specification example the ranking places `Naruto`
first, then `Naruto Shippuden`, then `Boruto: Naruto Next`; and for every
record list and every query whose lowered and stripped form is non-empty,
`search_rank` returns only records of the list whose lowered title contains
that query form, at most 25 of them, in non-decreasing order of the key
(does-not-start-with-query, then title length); when at most 25 records
match, the result is exactly the matching records (a permutation of them).
An empty or whitespace-only query returns the empty list instead. -/
theorem c5_search_ranked :
    (search_rank narutoList "naruto" =
      [⟨"Naruto", "u3"⟩, ⟨"Naruto Shippuden", "u1"⟩, ⟨"Boruto: Naruto Next", "u2"⟩]) ∧
    ∀ (l : List Anime) (query : String),
      (pyStrip (pyLower query)).length ≠ 0 →
      (∀ a ∈ search_rank l query, a ∈ l ∧
        pyIn (pyStrip (pyLower query)) (pyLower a.title) = true) ∧
      (search_rank l query).length ≤ 25 ∧
      (search_rank l query).Pairwise
        (fun x y => searchLe (pyStrip (pyLower query)) x y = true) ∧
      ((l.filter (fun a =>
          pyIn (pyStrip (pyLower query)) (pyLower a.title))).length ≤ 25 →
        List.Perm (search_rank l query)
          (l.filter (fun a => pyIn (pyStrip (pyLower query)) (pyLower a.title)))) := by
  constructor
  · decide
  · intro l query hq
    have hdef : search_rank l query =
        (stableSort (searchLe (pyStrip (pyLower query)))
          (l.filter (fun a =>
            pyIn (pyStrip (pyLower query)) (pyLower a.title)))).take 25 := by
      rw [search_rank]
      rw [if_neg hq]
    refine ⟨?_, ?_, ?_, ?_⟩
    · intro a ha
      rw [hdef] at ha
      have hsort := List.mem_of_mem_take ha
      have hfilt := (stableSort_perm _ _).mem_iff.mp hsort
      have h := List.mem_filter.mp hfilt
      exact ⟨h.1, h.2⟩
    · rw [hdef]
      exact List.length_take_le _ _
    · rw [hdef]
      exact (stableSort_pairwise _ (searchLe_total _) (searchLe_trans _) _).take
    · intro hle
      rw [hdef]
      have hlen : (stableSort (searchLe (pyStrip (pyLower query)))
          (l.filter (fun a =>
            pyIn (pyStrip (pyLower query)) (pyLower a.title)))).length ≤ 25 := by
        rw [(stableSort_perm _ _).length_eq]
        exact hle
      rw [List.take_of_length_le hlen]
      exact stableSort_perm _ _

/-- C5 witness: the amended claim applied to the example list with query
`naruto`. -/
theorem c5_witness :
    (search_rank narutoList "naruto").length ≤ 25 :=
  (c5_search_ranked.2 narutoList "naruto" (by decide)).2.1

/-- The lowered-title comparison is total. -/
theorem titleLe_total (x y : Anime) : titleLe x y || titleLe y x := by
  simp only [titleLe, Bool.or_eq_true, decide_eq_true_eq]
  exact le_total _ _

/-- The lowered-title comparison is transitive. -/
theorem titleLe_trans (x y z : Anime) (h1 : titleLe x y = true)
    (h2 : titleLe y z = true) : titleLe x z = true := by
  simp only [titleLe, decide_eq_true_eq] at *
  exact le_trans h1 h2

/-- C10: for every fetched page (including a failed fetch) and every letter
filter (including none), the list returned by `scrape_anime_list` is in
non-decreasing order of the lowercased title. -/
theorem c10_sorted (page : Option Soup) (letter : Option String) :
    (scrape_anime_list page letter).Pairwise
      (fun a b => pyLower a.title ≤ pyLower b.title) := by
  cases page with
  | none => simp [scrape_anime_list]
  | some soup =>
    have h := stableSort_pairwise titleLe titleLe_total titleLe_trans
      (match letter with
        | none => remove_duplicates (extract_anime_links soup)
        | some ch =>
          if ch.length = 0 then remove_duplicates (extract_anime_links soup)
          else (remove_duplicates (extract_anime_links soup)).filter
            (fun a => pyStarts (pyLower a.title) (pyLower ch)))
    refine List.Pairwise.imp ?_ h
    intro a b hab
    simpa [titleLe, decide_eq_true_eq] using hab

/-! ## Title cleaner: C7

The helper lemmas show that a title with no pattern occurrence is left alone
by the replacement fold, that stripping is idempotent, and that the
whitespace normalizer is a fixed point on its own output. -/

/-- The empty pattern occurs in every string. -/
theorem containsL_nil_pat (l : List Char) : containsL [] l = true := by
  induction l with
  | nil => rfl
  | cons c cs ih => rw [containsL]; simp [isPrefixL]

/-- A leading run of `a` is a leading run of `a ++ b`. -/
theorem isPrefixL_append (p : List Char) : ∀ a b : List Char,
    isPrefixL p a = true → isPrefixL p (a ++ b) = true := by
  induction p with
  | nil => intro a b _; rfl
  | cons x xs ih =>
    intro a b h
    cases a with
    | nil => simp [isPrefixL] at h
    | cons c cs =>
      rw [isPrefixL, Bool.and_eq_true] at h
      show isPrefixL (x :: xs) (c :: (cs ++ b)) = true
      rw [isPrefixL, Bool.and_eq_true]
      exact ⟨h.1, ih cs b h.2⟩

/-- An occurrence in `a` is an occurrence in `a ++ b`. -/
theorem containsL_append_l (p : List Char) : ∀ a b : List Char,
    containsL p a = true → containsL p (a ++ b) = true := by
  intro a
  induction a with
  | nil =>
    intro b h
    cases p with
    | nil => exact containsL_nil_pat b
    | cons x xs => simp [containsL, isPrefixL] at h
  | cons c cs ih =>
    intro b h
    rw [containsL, Bool.or_eq_true] at h
    rw [List.cons_append, containsL, Bool.or_eq_true]
    rcases h with h | h
    · exact Or.inl (by rw [← List.cons_append]; exact isPrefixL_append p (c :: cs) b h)
    · exact Or.inr (ih b h)

/-- An occurrence in `b` is an occurrence in `a ++ b`. -/
theorem containsL_append_r (p : List Char) : ∀ a b : List Char,
    containsL p b = true → containsL p (a ++ b) = true := by
  intro a
  induction a with
  | nil => intro b h; exact h
  | cons c cs ih =>
    intro b h
    rw [List.cons_append, containsL, Bool.or_eq_true]
    exact Or.inr (ih b h)

/-- With no occurrence of the pattern, the replacement loop is the identity. -/
theorem replaceAllGo_not_contains (p : List Char) : ∀ (fuel : Nat) (l : List Char),
    l.length ≤ fuel → containsL p l = false → replaceAllGo p fuel l = l := by
  intro fuel
  induction fuel with
  | zero =>
    intro l hlen _
    have hl : l = [] := List.eq_nil_of_length_eq_zero (Nat.le_zero.mp hlen)
    subst hl
    rfl
  | succ n ih =>
    intro l hlen hcont
    cases l with
    | nil => rfl
    | cons c cs =>
      have hpre : isPrefixL p (c :: cs) = false := by
        cases hp : isPrefixL p (c :: cs)
        · rfl
        · rw [containsL, hp, Bool.true_or] at hcont; cases hcont
      have hrest : containsL p cs = false := by
        cases hr : containsL p cs
        · rfl
        · rw [containsL, hr, Bool.or_true] at hcont; cases hcont
      have hcs : cs.length ≤ n := by
        rw [List.length_cons] at hlen
        omega
      simp only [replaceAllGo]
      rw [if_neg (by simp [hpre])]
      rw [ih cs hcs hrest]

/-- With no occurrence of the pattern, `str.replace` is the identity. -/
theorem replaceAllL_not_contains (p l : List Char) (h : containsL p l = false) :
    replaceAllL p l = l :=
  replaceAllGo_not_contains p l.length l (Nat.le_refl _) h

/-- String version of the previous lemma. -/
theorem pyReplaceAll_not_in (s pat : String) (h : pyIn pat s = false) :
    pyReplaceAll s pat = s :=
  String.ext (replaceAllL_not_contains pat.data s.data h)

/-- A pattern-free string passes through the replacement fold unchanged. -/
theorem foldl_replace_free (ps : List String) : ∀ s : String,
    (∀ p ∈ ps, pyIn p s = false ∧ pyIn (pyLower p) s = false) →
    ps.foldl (fun s p => pyReplaceAll (pyReplaceAll s p) (pyLower p)) s = s := by
  induction ps with
  | nil => intro s _; rfl
  | cons p ps ih =>
    intro s h
    have hp := h p (List.mem_cons_self _ _)
    rw [List.foldl_cons, pyReplaceAll_not_in s p hp.1,
      pyReplaceAll_not_in s (pyLower p) hp.2]
    exact ih s (fun q hq => h q (List.mem_cons_of_mem _ hq))

/-- Unpack `patternFree` into its per-pattern facts. -/
theorem patternFree_spec (s : String) (h : patternFree s = true) :
    ∀ p ∈ unwantedPatterns, pyIn p s = false ∧ pyIn (pyLower p) s = false := by
  rw [patternFree, List.all_eq_true] at h
  intro p hp
  have hps := h p hp
  rw [Bool.and_eq_true] at hps
  exact ⟨by simpa using hps.1, by simpa using hps.2⟩

/-- Dropping a satisfied run twice is the same as dropping it once. -/
theorem dropWhile_dropWhile (p : Char → Bool) (l : List Char) :
    List.dropWhile p (List.dropWhile p l) = List.dropWhile p l := by
  induction l with
  | nil => rfl
  | cons c cs ih =>
    rw [List.dropWhile_cons]
    by_cases hc : p c = true
    · rw [if_pos hc]; exact ih
    · rw [if_neg hc, List.dropWhile_cons, if_neg hc]

/-- The head surviving a `dropWhile` fails the predicate. -/
theorem dropWhile_eq_cons_head (p : Char → Bool) (c : Char) (t : List Char) :
    ∀ l : List Char, List.dropWhile p l = c :: t → p c = false := by
  intro l
  induction l with
  | nil => intro h; cases h
  | cons d ds ih =>
    intro h
    rw [List.dropWhile_cons] at h
    by_cases hd : p d = true
    · rw [if_pos hd] at h; exact ih h
    · rw [if_neg hd] at h
      cases h
      simpa using hd

/-- Right-stripping a left-stripped list leaves it left-stripped. -/
theorem dropWhile_rstripL (l : List Char) (h : List.dropWhile isPySpace l = l) :
    List.dropWhile isPySpace (rstripL l) = rstripL l := by
  have hsplit : l = rstripL l ++ (List.takeWhile isPySpace l.reverse).reverse := by
    conv_lhs => rw [← List.reverse_reverse l,
      ← List.takeWhile_append_dropWhile (p := isPySpace) (l := l.reverse)]
    rw [List.reverse_append]
    rfl
  cases hr : rstripL l with
  | nil => rfl
  | cons d t =>
    have hd : isPySpace d = false := by
      refine dropWhile_eq_cons_head isPySpace d
        (t ++ (List.takeWhile isPySpace l.reverse).reverse) l ?_
      rw [h]
      conv_lhs => rw [hsplit]
      rw [hr, List.cons_append]
    rw [List.dropWhile_cons, if_neg (by simp [hd])]

/-- Right strip is idempotent. -/
theorem rstripL_rstripL (l : List Char) : rstripL (rstripL l) = rstripL l := by
  rw [rstripL, rstripL, List.reverse_reverse, dropWhile_dropWhile]

/-- `str.strip` is idempotent. -/
theorem stripL_stripL (l : List Char) : stripL (stripL l) = stripL l := by
  rw [stripL, stripL,
    dropWhile_rstripL _ (dropWhile_dropWhile isPySpace l), rstripL_rstripL]

/-- An occurrence in the stripped list is an occurrence in the list. -/
theorem containsL_stripL (pat l : List Char)
    (h : containsL pat (stripL l) = true) : containsL pat l = true := by
  have hA : List.dropWhile isPySpace l = stripL l ++
      (List.takeWhile isPySpace (List.dropWhile isPySpace l).reverse).reverse := by
    conv_lhs => rw [← List.reverse_reverse (List.dropWhile isPySpace l),
      ← List.takeWhile_append_dropWhile (p := isPySpace)
        (l := (List.dropWhile isPySpace l).reverse)]
    rw [List.reverse_append]
    rfl
  have h1 : containsL pat (List.dropWhile isPySpace l) = true := by
    rw [hA]
    exact containsL_append_l pat _ _ h
  conv_lhs => rw [← List.takeWhile_append_dropWhile (p := isPySpace) (l := l)]
  exact containsL_append_r pat _ _ h1

/-- An occurrence in the stripped string is an occurrence in the string. -/
theorem pyIn_pyStrip (pat s : String) (h : pyIn pat (pyStrip s) = true) :
    pyIn pat s = true :=
  containsL_stripL pat.data s.data h

/-- Pattern-freedom is preserved by stripping. -/
theorem patternFree_pyStrip (s : String) (h : patternFree s = true) :
    patternFree (pyStrip s) = true := by
  rw [patternFree, List.all_eq_true] at h ⊢
  intro p hp
  have hps := h p hp
  rw [Bool.and_eq_true] at hps ⊢
  have h1 : pyIn p s = false := by simpa using hps.1
  have h2 : pyIn (pyLower p) s = false := by simpa using hps.2
  constructor
  · have : pyIn p (pyStrip s) = false := by
      cases hx : pyIn p (pyStrip s)
      · rfl
      · rw [pyIn_pyStrip p s hx] at h1; cases h1
    simp [this]
  · have : pyIn (pyLower p) (pyStrip s) = false := by
      cases hx : pyIn (pyLower p) (pyStrip s)
      · rfl
      · rw [pyIn_pyStrip (pyLower p) s hx] at h2; cases h2
    simp [this]

/-- Every word the splitter emits is non-empty and free of whitespace,
provided the running accumulator is. -/
theorem wordsAux_good (l : List Char) : ∀ acc : List Char,
    (∀ c ∈ acc, isPySpace c = false) →
    ∀ w ∈ wordsAux l acc, w ≠ [] ∧ ∀ c ∈ w, isPySpace c = false := by
  induction l with
  | nil =>
    intro acc hacc w hw
    by_cases hae : acc.isEmpty
    · rw [wordsAux, if_pos hae] at hw
      simp at hw
    · rw [wordsAux, if_neg hae] at hw
      rw [List.mem_singleton] at hw
      subst hw
      refine ⟨?_, ?_⟩
      · simp only [ne_eq, List.reverse_eq_nil_iff]
        intro h
        rw [h] at hae
        exact hae rfl
      · intro c hc
        exact hacc c (List.mem_reverse.mp hc)
  | cons c cs ih =>
    intro acc hacc w hw
    by_cases hc : isPySpace c
    · rw [wordsAux, if_pos hc] at hw
      by_cases hae : acc.isEmpty
      · rw [if_pos hae] at hw
        exact ih [] (by simp) w hw
      · rw [if_neg hae] at hw
        rcases List.mem_cons.mp hw with rfl | hw'
        · refine ⟨?_, ?_⟩
          · simp only [ne_eq, List.reverse_eq_nil_iff]
            intro h
            rw [h] at hae
            exact hae rfl
          · intro d hd
            exact hacc d (List.mem_reverse.mp hd)
        · exact ih [] (by simp) w hw'
    · have hc' : isPySpace c = false := by simpa using hc
      rw [wordsAux, if_neg hc] at hw
      refine ih (c :: acc) ?_ w hw
      intro d hd
      rcases List.mem_cons.mp hd with rfl | hd'
      · exact hc'
      · exact hacc d hd'

/-- Feeding a whitespace-free word into the splitter just extends the
accumulator. -/
theorem wordsAux_prepend (w : List Char) : ∀ r acc : List Char,
    (∀ c ∈ w, isPySpace c = false) →
    wordsAux (w ++ r) acc = wordsAux r (w.reverse ++ acc) := by
  induction w with
  | nil => intro r acc _; simp
  | cons d w' ih =>
    intro r acc hw
    have hd : isPySpace d = false := hw d (List.mem_cons_self _ _)
    rw [List.cons_append, wordsAux, if_neg (by simp [hd])]
    rw [ih r (d :: acc) (fun c hc => hw c (List.mem_cons_of_mem _ hc))]
    rw [List.reverse_cons, List.append_assoc]
    rfl

/-- Splitting a space-joined list of good words recovers the words. -/
theorem wordsAux_joinSp : ∀ ws : List (List Char),
    (∀ w ∈ ws, w ≠ [] ∧ ∀ c ∈ w, isPySpace c = false) →
    wordsAux (joinSp ws) [] = ws := by
  intro ws
  induction ws with
  | nil => intro _; rfl
  | cons w ws' ih =>
    intro h
    have hw := h w (List.mem_cons_self _ _)
    cases ws' with
    | nil =>
      rw [show joinSp [w] = w from rfl]
      have h2 := wordsAux_prepend w [] [] hw.2
      rw [List.append_nil, List.append_nil] at h2
      rw [h2, wordsAux, if_neg (by simp [hw.1]), List.reverse_reverse]
    | cons w2 ws'' =>
      rw [show joinSp (w :: w2 :: ws'') = w ++ ' ' :: joinSp (w2 :: ws'') from rfl]
      rw [wordsAux_prepend w (' ' :: joinSp (w2 :: ws'')) [] hw.2, List.append_nil]
      rw [wordsAux, if_pos (by decide), if_neg (by simp [hw.1]),
        List.reverse_reverse]
      rw [ih (fun u hu => h u (List.mem_cons_of_mem _ hu))]

/-- Joined good words end in a non-whitespace character. -/
theorem rev_joinSp_cons : ∀ ws : List (List Char),
    (∀ w ∈ ws, w ≠ [] ∧ ∀ c ∈ w, isPySpace c = false) → ws ≠ [] →
    ∃ d t, (joinSp ws).reverse = d :: t ∧ isPySpace d = false := by
  intro ws
  induction ws with
  | nil => intro _ h; exact absurd rfl h
  | cons w ws' ih =>
    intro h _
    have hw := h w (List.mem_cons_self _ _)
    cases ws' with
    | nil =>
      cases hr : w.reverse with
      | nil => exact absurd (List.reverse_eq_nil_iff.mp hr) hw.1
      | cons d t =>
        refine ⟨d, t, ?_, ?_⟩
        · rw [show joinSp [w] = w from rfl, hr]
        · have hd : d ∈ w.reverse := by rw [hr]; exact List.mem_cons_self _ _
          exact hw.2 d (List.mem_reverse.mp hd)
    | cons w2 ws'' =>
      obtain ⟨d, t, hdt, hd⟩ :=
        ih (fun u hu => h u (List.mem_cons_of_mem _ hu)) (by simp)
      refine ⟨d, (t ++ [' ']) ++ w.reverse, ?_, hd⟩
      rw [show joinSp (w :: w2 :: ws'') = w ++ ' ' :: joinSp (w2 :: ws'') from rfl]
      rw [List.reverse_append, List.reverse_cons, hdt]
      simp [List.append_assoc]

/-- Stripping a space-joined list of good words changes nothing. -/
theorem stripL_joinSp : ∀ ws : List (List Char),
    (∀ w ∈ ws, w ≠ [] ∧ ∀ c ∈ w, isPySpace c = false) →
    stripL (joinSp ws) = joinSp ws := by
  intro ws h
  cases ws with
  | nil => rfl
  | cons w ws' =>
    have hw := h w (List.mem_cons_self _ _)
    obtain ⟨d, w'', hdw, hd⟩ : ∃ d w'', w = d :: w'' ∧ isPySpace d = false := by
      cases w with
      | nil => exact absurd rfl hw.1
      | cons d w'' => exact ⟨d, w'', rfl, hw.2 d (List.mem_cons_self _ _)⟩
    obtain ⟨rest, hrest⟩ : ∃ rest, joinSp (w :: ws') = d :: rest := by
      cases ws' with
      | nil => exact ⟨w'', by rw [show joinSp [w] = w from rfl, hdw]⟩
      | cons w2 ws'' =>
        refine ⟨w'' ++ ' ' :: joinSp (w2 :: ws''), ?_⟩
        rw [show joinSp (w :: w2 :: ws'') = w ++ ' ' :: joinSp (w2 :: ws'') from rfl,
          hdw, List.cons_append]
    have hl : List.dropWhile isPySpace (joinSp (w :: ws')) = joinSp (w :: ws') := by
      rw [hrest, List.dropWhile_cons, if_neg (by simp [hd])]
    obtain ⟨e, t, het, he⟩ := rev_joinSp_cons (w :: ws') h (by simp)
    have hr : rstripL (joinSp (w :: ws')) = joinSp (w :: ws') := by
      rw [rstripL, het, List.dropWhile_cons, if_neg (by simp [he]), ← het,
        List.reverse_reverse]
    rw [stripL, hl, hr]

/-- `clean_title` with its local bindings unfolded. -/
theorem clean_title_eq (t : String) : clean_title t =
    if 2 < (pyNormSp (unwantedPatterns.foldl
        (fun s p => pyReplaceAll (pyReplaceAll s p) (pyLower p)) (pyStrip t))).length
    then pyNormSp (unwantedPatterns.foldl
        (fun s p => pyReplaceAll (pyReplaceAll s p) (pyLower p)) (pyStrip t))
    else pyStrip t := rfl

/-- A pattern-free string that is both strip-fixed and normalize-fixed is a
fixed point of the cleaner. -/
theorem clean_title_fixed (s : String) (hfree : patternFree s = true)
    (hstrip : pyStrip s = s) (hnorm : pyNormSp s = s) :
    clean_title s = s := by
  rw [clean_title_eq, hstrip,
    foldl_replace_free unwantedPatterns s (patternFree_spec s hfree), hnorm]
  simp

set_option maxHeartbeats 2000000 in
set_option maxRecDepth 4000 in
/-- C7 counterexample.  The claim asserts idempotence for every title.
Removing `Episode` from `EpiEpisodesode` creates a fresh `Episode` occurrence
(CPython `replace` does not rescan), so the first cleaning returns
`abc Episode def` and the second cleaning removes the newly formed pattern,
yielding `abc def`: the cleaner is not idempotent on this title. -/
theorem c7_counterexample :
    clean_title "abc EpiEpisodesode def" = "abc Episode def" ∧
    clean_title (clean_title "abc EpiEpisodesode def") = "abc def" ∧
    clean_title (clean_title "abc EpiEpisodesode def") ≠
      clean_title "abc EpiEpisodesode def" := by
  refine ⟨by decide, by decide, by decide⟩

/-- C7 (amended): the cleaner is idempotent on every title whose cleaned form
is already clean, that is, contains no boilerplate pattern (in either case
variant); universal idempotence fails because a removal can splice together a
fresh pattern occurrence. -/
theorem c7_clean_title_idem (t : String)
    (hfree : patternFree (clean_title t) = true) :
    clean_title (clean_title t) = clean_title t := by
  by_cases hN : 2 < (pyNormSp (unwantedPatterns.foldl
      (fun s p => pyReplaceAll (pyReplaceAll s p) (pyLower p)) (pyStrip t))).length
  · have hct : clean_title t = pyNormSp (unwantedPatterns.foldl
        (fun s p => pyReplaceAll (pyReplaceAll s p) (pyLower p)) (pyStrip t)) := by
      rw [clean_title_eq, if_pos hN]
    rw [hct] at hfree ⊢
    generalize (unwantedPatterns.foldl
        (fun s p => pyReplaceAll (pyReplaceAll s p) (pyLower p)) (pyStrip t)) = X
      at hfree ⊢
    have hgood := wordsAux_good X.data [] (by simp)
    refine clean_title_fixed _ hfree ?_ ?_
    · exact String.ext (stripL_joinSp _ hgood)
    · exact String.ext (congrArg joinSp (wordsAux_joinSp _ hgood))
  · have hct : clean_title t = pyStrip t := by
      rw [clean_title_eq, if_neg hN]
    rw [hct] at hfree ⊢
    have hFs : unwantedPatterns.foldl
        (fun s p => pyReplaceAll (pyReplaceAll s p) (pyLower p)) (pyStrip t) =
        pyStrip t :=
      foldl_replace_free unwantedPatterns (pyStrip t) (patternFree_spec _ hfree)
    have hstrip2 : pyStrip (pyStrip t) = pyStrip t :=
      String.ext (stripL_stripL t.data)
    rw [hFs] at hN
    rw [clean_title_eq, hstrip2, hFs, if_neg hN]

set_option maxHeartbeats 2000000 in
set_option maxRecDepth 4000 in
/-- C7 witness: `Naruto` cleans to itself, and the amended idempotence
applies to it. -/
theorem c7_witness :
    clean_title (clean_title "Naruto") = clean_title "Naruto" :=
  c7_clean_title_idem "Naruto" (by decide)

end Scraper
